import Mathlib

/-!
# Verification of the datasheet ingestion normalization pipeline

Shallow embedding of the pure text-normalization core of
`skills/datasheet-intelligence/scripts/ingest_docs.py`:
image-placeholder resolution, heading anchor annotation, cross-reference
normalization, section extraction, chunking, and table reconstruction.

Strings are modelled as `List Char` (Python `str` is a character sequence;
Lean 4.14's `String` is itself a wrapper around `List Char`).  Character
classes (`\s`, `\d`, `\b`-word characters, `str.lower`) are modelled over
ASCII, which is what every document-relevant construct in the script uses.
Python's unbounded `while` loops are embedded either with an explicit fuel
parameter (the chunker, whose loop can genuinely diverge) or with a
pigeonhole-justified bounded search (slug deduplication, which provably
terminates).
-/

set_option maxHeartbeats 1000000

/-- Character strings, modelled as lists of characters. -/
abbrev Str := List Char

/-- Convert a Lean string literal to the model representation. -/
def strL (s : String) : Str := s.toList

/-- Python whitespace (`str.strip`, regex `\s`), ASCII fragment:
space, tab, newline, carriage return, vertical tab, form feed. -/
def isSpacePy (c : Char) : Bool :=
  c == ' ' || c == '\t' || c == '\n' || c == '\r' || c == '\x0b' || c == '\x0c'

/-- Length of the longest prefix satisfying `p`. -/
def countWhile (p : Char → Bool) (l : Str) : Nat := (l.takeWhile p).length

/-- `text.strip()`: drop leading and trailing whitespace. -/
def pyStrip (l : Str) : Str :=
  ((l.dropWhile isSpacePy).reverse.dropWhile isSpacePy).reverse

/-- `text.strip('-')`: drop leading and trailing hyphens (used by `slugify`). -/
def stripDashes (l : Str) : Str :=
  ((l.dropWhile (· == '-')).reverse.dropWhile (· == '-')).reverse

/-- Python slice `s[a:b]` for `0 ≤ a ≤ b` (the only shape the script uses). -/
def pySlice (s : Str) (a b : Nat) : Str := (s.drop a).take (b - a)

/-- Does `sub` occur in `s` starting exactly at index `i`? -/
def subAt (s sub : Str) (i : Nat) : Bool := (s.drop i).take sub.length == sub

/-- Search downward from index `i` to index `a` for an occurrence of `sub`. -/
def rfindGo (s sub : Str) (a : Nat) : Nat → Option Nat
  | 0 => if 0 < a then none else if subAt s sub 0 then some 0 else none
  | j + 1 =>
    if j + 1 < a then none
    else if subAt s sub (j + 1) then some (j + 1)
    else rfindGo s sub a j

/-- Python `s.rfind(sub, a, b)`: highest index `i` with `a ≤ i` and
`i + len(sub) ≤ min(b, len(s))` such that `sub` occurs at `i`; `-1` if none. -/
def pyRfind (s sub : Str) (a b : Nat) : Int :=
  let m := min b s.length
  if sub.length ≤ m then
    match rfindGo s sub a (m - sub.length) with
    | some i => (i : Int)
    | none => -1
  else -1

/-- Decimal digit characters, `str(int)` rendering. -/
def digitChar10 (n : Nat) : Char :=
  match n with
  | 0 => '0' | 1 => '1' | 2 => '2' | 3 => '3' | 4 => '4'
  | 5 => '5' | 6 => '6' | 7 => '7' | 8 => '8' | 9 => '9'
  | _ => '*'

/-- Fuelled decimal rendering; the fuel `n + 1` in `natToDec` always suffices. -/
def natToDecGo : Nat → Nat → Str
  | 0, _ => []
  | f + 1, n =>
    if n < 10 then [digitChar10 n]
    else natToDecGo f (n / 10) ++ [digitChar10 (n % 10)]

/-- Python `str(n)` for a natural number. -/
def natToDec (n : Nat) : Str := natToDecGo (n + 1) n

/-- Python `f"{n:03d}"` for a natural number: zero-pad to width 3. -/
def pad3 (n : Nat) : Str :=
  let d := natToDec n
  List.replicate (3 - d.length) '0' ++ d

/-!
## Chunker (`chunk_text`, ingest_docs.py lines 444–469)

The Python generator runs an unbounded `while start < size` loop; it is
embedded with an explicit fuel.  `chunkLoop s mc ov fuel start` returns the
chunks produced in at most `fuel` loop iterations together with a flag that
is `true` iff the loop reached its exit (`start ≥ size` or `end ≥ size`)
within the fuel.  A run of the Python generator to completion corresponds to
a fuel for which the flag is `true`; a run for which no fuel produces `true`
is a diverging generator.
-/

/-- The cut-point computation of one `chunk_text` iteration: candidate end
`min(size, start + max_chars)`; when more text remains, the rightmost of a
paragraph break, line break or space found in `[start + max_chars/2, end)`
replaces the hard cut, provided it lies past `start + max_chars/3`. -/
def chunkStop (s : Str) (maxChars start : Nat) : Nat :=
  let size := s.length
  let e0 := min size (start + maxChars)
  if e0 < size then
    let cut := max (pyRfind s (strL "\n\n") (start + maxChars / 2) e0)
      (max (pyRfind s (strL "\n") (start + maxChars / 2) e0)
        (pyRfind s (strL " ") (start + maxChars / 2) e0))
    if cut > ((start + maxChars / 3 : Nat) : Int) then cut.toNat else e0
  else e0

/-- One-per-iteration embedding of the `while` loop of `chunk_text`. -/
def chunkLoop (s : Str) (maxChars overlap : Nat) : Nat → Nat → List Str × Bool
  | fuel, start =>
    if start < s.length then
      match fuel with
      | 0 => ([], false)
      | fuel + 1 =>
        let stop := chunkStop s maxChars start
        let piece := pyStrip (pySlice s start stop)
        let rest :=
          if stop ≥ s.length then ([], true)
          else chunkLoop s maxChars overlap fuel (stop - overlap)
        (if piece ≠ [] then piece :: rest.1 else rest.1, rest.2)
    else ([], true)

/-- `chunk_text(text, max_chars, overlap)` with an explicit iteration fuel. -/
def chunk_text (text : Str) (maxChars overlap : Nat) (fuel : Nat) :
    List Str × Bool :=
  let normalized := pyStrip text
  if normalized = [] then ([], true)
  else chunkLoop normalized maxChars overlap fuel 0

/-- A string has no leading and no trailing Python whitespace. -/
def strippedB (l : Str) : Bool :=
  (match l.head? with
   | none => true
   | some c => !isSpacePy c) &&
  (match l.getLast? with
   | none => true
   | some c => !isSpacePy c)

/-!
## Shared text helpers (`clean_text`, escaping, substring search)
-/

/-- Split on every character satisfying `p`, keeping empty fields
(the splitting step underlying Python's `str.split`). -/
def splitChars (p : Char → Bool) : Str → List Str
  | [] => [[]]
  | c :: rest =>
    let r := splitChars p rest
    if p c then [] :: r
    else
      match r with
      | [] => [[c]]
      | h :: t => (c :: h) :: t

/-- Python `text.split()`: whitespace-run splitting, empty fields dropped. -/
def pyWords (l : Str) : List Str :=
  (splitChars isSpacePy l).filter (fun w => !w.isEmpty)

/-- `sep.join(parts)`. -/
def joinSep (sep : Str) : List Str → Str
  | [] => []
  | [x] => x
  | x :: xs => x ++ sep ++ joinSep sep xs

/-- `clean_text(text)`: replace no-break spaces by spaces, then collapse all
whitespace runs to single spaces, trimming the ends. -/
def clean_text (l : Str) : Str :=
  joinSep (strL " ") (pyWords (l.map (fun c => if c = '\xA0' then ' ' else c)))

/-- `escape_markdown_cell`: `clean_text` then escape pipes. -/
def escPipe : Str → Str
  | [] => []
  | c :: r => (if c = '|' then ['\\', '|'] else [c]) ++ escPipe r

/-- `escape_markdown_cell(text)`. -/
def escape_markdown_cell (l : Str) : Str := escPipe (clean_text l)

/-- Escape `[` and `]` (body of `escape_markdown_alt`). -/
def escBr : Str → Str
  | [] => []
  | c :: r =>
    (if c = '[' then ['\\', '['] else if c = ']' then ['\\', ']'] else [c]) ++ escBr r

/-- `escape_markdown_alt(text)`. -/
def escape_markdown_alt (l : Str) : Str := escBr (clean_text l)

/-- Does `needle` occur at the start of `hay`? -/
def hasPrefixL (needle hay : Str) : Bool := hay.take needle.length == needle

/-- Index of the first occurrence of `needle` in `hay`, if any. -/
def findSub : Str → Str → Option Nat
  | [], needle => if needle = [] then some 0 else none
  | c :: rest, needle =>
    if hasPrefixL needle (c :: rest) then some 0
    else (findSub rest needle).map (· + 1)

/-- Python `needle in hay` (substring membership). -/
def isSubstr (needle hay : Str) : Bool := (findSub hay needle).isSome

/-!
## Table reconstructor (`table_to_matrix` / `render_table_markdown`,
ingest_docs.py lines 507–560)

A table cell carries its text and zero-based inclusive start/end row and
column offsets, as integers (the values `safe_int` produced from the
document model; a failed parse yields the same defaults the code supplies).
-/

structure PyTableCell where
  text : Str
  rowStart : Int
  rowEnd : Int
  colStart : Int
  colEnd : Int

structure PyTable where
  numRows : Int
  numCols : Int
  cells : List PyTableCell

/-- Python `range(lo, hi + 1)` over integers, as natural-number indices
(only reached with `lo ≥ 0`). -/
def intRange (lo hi : Int) : List Nat :=
  if lo > hi then [] else List.range' lo.toNat (hi - lo + 1).toNat

/-- The write of one target grid position inside the cell loop of
`table_to_matrix`: `if current and text not in current` concatenate with
`" / "`, `elif not current` set, else keep. -/
def writeVal (current text : Str) : Str :=
  if current ≠ [] ∧ isSubstr text current = false then current ++ strL " / " ++ text
  else if current = [] then text
  else current

/-- Apply `writeVal` at position `(r, c)` of the grid. -/
def applyCellAt (m : List (List Str)) (r c : Nat) (text : Str) : List (List Str) :=
  match m.get? r with
  | none => m
  | some row => m.set r (row.set c (writeVal (row.getD c []) text))

/-- Process one spanning cell: clean its text, skip empty text or negative
start offsets, clamp end offsets to the grid, fill every covered position. -/
def applyCell (rows cols : Nat) (m : List (List Str)) (cell : PyTableCell) :
    List (List Str) :=
  let text := clean_text cell.text
  if text = [] then m
  else if cell.rowStart < 0 ∨ cell.colStart < 0 then m
  else
    let rowEnd := min cell.rowEnd ((rows : Int) - 1)
    let colEnd := min cell.colEnd ((cols : Int) - 1)
    (intRange cell.rowStart rowEnd).foldl
      (fun acc r =>
        (intRange cell.colStart colEnd).foldl
          (fun acc2 c => applyCellAt acc2 r c text) acc)
      m

/-- `table_to_matrix(table)`: dense grid from sparse spanning cells, with
fully blank rows dropped at the end. -/
def table_to_matrix (t : PyTable) : List (List Str) :=
  if t.numRows ≤ 0 ∨ t.numCols ≤ 0 then []
  else
    let rows := t.numRows.toNat
    let cols := t.numCols.toNat
    let m0 := List.replicate rows (List.replicate cols ([] : Str))
    let m := t.cells.foldl (applyCell rows cols) m0
    m.filter (fun row => row.any (fun cell => !(pyStrip cell).isEmpty))

/-- `render_table_markdown(matrix)`: header from the first row (blank header
cells replaced by `col_N`), a `---` separator row, then the body rows. -/
def render_table_markdown (m : List (List Str)) : List Str :=
  if m = [] then []
  else
    let cols := (m.map List.length).foldl max 0
    let rows := m.map (fun row => row ++ List.replicate (cols - row.length) ([] : Str))
    let hdr0 := match rows with | [] => ([] : List Str) | r :: _ => r
    let header := hdr0.enum.map
      (fun p => if pyStrip p.2 ≠ [] then p.2 else strL "col_" ++ natToDec (p.1 + 1))
    (strL "| " ++ joinSep (strL " | ") (header.map escape_markdown_cell) ++ strL " |") ::
      (strL "| " ++ joinSep (strL " | ") (List.replicate cols (strL "---")) ++ strL " |") ::
      (rows.drop 1).map
        (fun row => strL "| " ++ joinSep (strL " | ") (row.map escape_markdown_cell) ++ strL " |")

/-!
## Image placeholder resolver (`replace_image_placeholders`,
ingest_docs.py lines 309–324)
-/

structure ImageRef where
  alt : Str
  relativePath : Str

/-- The docling inline image placeholder token. -/
def imgToken : Str := strL "<!-- image -->"

/-- Python `markdown.split(tok)` for the non-empty token `tok`, by a
single pass with a skip counter over the characters. -/
def pySplitTokGo (tok : Str) : Nat → Str → List Str
  | _, [] => [[]]
  | k + 1, _ :: rest => pySplitTokGo tok k rest
  | 0, c :: rest =>
    if hasPrefixL tok (c :: rest) then [] :: pySplitTokGo tok (tok.length - 1) rest
    else
      match pySplitTokGo tok 0 rest with
      | [] => [[c]]
      | h :: t => (c :: h) :: t

/-- Python `markdown.split(tok)`. -/
def pySplitTok (tok l : Str) : List Str := pySplitTokGo tok 0 l

/-- The substitution for the `idx`-th placeholder occurrence (1-based):
the `idx`-th image as a markdown reference when it exists (`idx ≤ len(images)`
iff `images.get? (idx - 1)` is `some`), the numbered fallback otherwise. -/
def imageSub (images : List ImageRef) (idx : Nat) : Str :=
  match images.get? (idx - 1) with
  | some image =>
    strL "![" ++ escape_markdown_alt image.alt ++ strL "](" ++ image.relativePath ++ strL ")"
  | none => strL "![image_" ++ pad3 idx ++ strL "](#image_" ++ pad3 idx ++ strL ")"

/-- The output loop of `replace_image_placeholders`: every part except the
last is followed by the substitution for its (1-based) index. -/
def buildParts (images : List ImageRef) : Nat → List Str → Str
  | _, [] => []
  | _, [last] => last
  | idx, part :: rest => part ++ imageSub images idx ++ buildParts images (idx + 1) rest

/-- `replace_image_placeholders(markdown, images)`. -/
def replace_image_placeholders (markdown : Str) (images : List ImageRef) : Str :=
  let parts := pySplitTok imgToken markdown
  if parts.length = 1 then markdown
  else buildParts images 1 parts

/-- Follows the spec's words, for refinement against
`replace_image_placeholders`: walk the text, substituting the k-th
placeholder occurrence (1-based) in place, so that no placeholder is
dropped; `k ≤ len(images)` selects the image reference, otherwise the
stable numbered fallback. -/
def specResolveImages (images : List ImageRef) (k : Nat) (md : Str) : Str :=
  match h : findSub md imgToken with
  | none => md
  | some i =>
    md.take i ++ imageSub images k ++
      specResolveImages images (k + 1) (md.drop (i + imgToken.length))
termination_by md.length
decreasing_by
  simp only [List.length_drop]
  cases md with
  | nil =>
    simp [findSub] at h
    exact absurd h.1 (by decide)
  | cons c r =>
    have h13 : imgToken.length = 14 := by decide
    simp [h13]
    omega

/-!
## The `TABLE_REF_RE` matcher

`TABLE_REF_RE = \b(?:See\s+)?(Table|Figure|Section|Chapter)\s+(\d+(?:\.\d+)*)\b`
with `re.IGNORECASE`.  The pattern is compiled by hand into a deterministic
matcher.  Backtracking collapses as follows:
* the four label alternatives start with pairwise distinct letters, so at most
  one can match at a position;
* each `\s+` is followed by a non-whitespace requirement, so the greedy
  whitespace run is the only viable split;
* for the trailing `(?:\.\d+)*\b`, if the word boundary fails after the
  greedy run of groups it succeeds after dropping the last `.digits` group
  (the next character is then `.`, a non-word character); dropping digits
  inside a group never helps (the next character would be a digit);
* if `(?:See\s+)?` matched but the remainder fails, the engine retries
  without the optional group at the same start position.
-/

/-- Regex word character (`\b` classification), ASCII fragment. -/
def isWordChar (c : Char) : Bool := c.isAlphanum || c == '_'

def isWordOpt : Option Char → Bool
  | none => false
  | some c => isWordChar c

/-- Is there a word boundary between a character (`none` = string edge)
and the next? -/
def boundaryOk (prev next : Option Char) : Bool := isWordOpt prev != isWordOpt next

/-- Case-insensitive match of the lowercase word `w` at the start of `cs`. -/
def lowerPrefixCI (w cs : Str) : Bool := (cs.take w.length).map Char.toLower == w

/-- The label alternation `(Table|Figure|Section|Chapter)` (case-insensitive);
returns the canonical lowercase label and its length. -/
def tryLabelAt (cs : Str) : Option (Str × Nat) :=
  if lowerPrefixCI (strL "table") cs then some (strL "table", 5)
  else if lowerPrefixCI (strL "figure") cs then some (strL "figure", 6)
  else if lowerPrefixCI (strL "section") cs then some (strL "section", 7)
  else if lowerPrefixCI (strL "chapter") cs then some (strL "chapter", 7)
  else none

/-- One-pass automaton for the greedy parse of `(?:\.\d+)*`.  State `0`:
initial boundary; `1`: just after a dot, a digit is required; `2`: inside a
group's digits.  Returns the consumed length of the full greedy run and, when
at least one group was completed, the consumed length just before the last
completed group (the backtracking target for the trailing `\b`). -/
def dgRun : Nat → Nat → Nat → Option Nat → Str → Nat × Option Nat
  | st, cons, lastAcc, prevAcc, [] =>
    if st = 2 then (cons, some lastAcc) else (lastAcc, prevAcc)
  | st, cons, lastAcc, prevAcc, c :: rest =>
    if st = 0 then
      if c = '.' then dgRun 1 (cons + 1) lastAcc prevAcc rest else (lastAcc, prevAcc)
    else if st = 1 then
      if c.isDigit then dgRun 2 (cons + 1) lastAcc prevAcc rest else (lastAcc, prevAcc)
    else
      if c.isDigit then dgRun 2 (cons + 1) lastAcc prevAcc rest
      else if c = '.' then dgRun 1 (cons + 1) cons (some lastAcc) rest
      else (cons, some lastAcc)

/-- `\d+(?:\.\d+)*\b` at the start of `cs`: the consumed length, if it
matches.  The end always falls after a digit, so the trailing `\b` holds iff
the following character is not a word character; on failure the match
backtracks to just before the last `.digits` group (the next character is
then a dot, so `\b` holds there). -/
def parseNum (cs : Str) : Option Nat :=
  let d := countWhile Char.isDigit cs
  if d = 0 then none
  else
    let pr := dgRun 0 0 0 none (cs.drop d)
    let ge := d + pr.1
    if isWordOpt (cs.get? ge) = false then some ge
    else
      match pr.2 with
      | some pe => some (d + pe)
      | none => none

/-- `(Table|Figure|Section|Chapter)\s+(\d+(?:\.\d+)*)\b` at offset `off` of
`cs`: total consumed length from the start of `cs`, canonical lowercase
label, and the matched number text. -/
def coreMatch (off : Nat) (cs : Str) : Option (Nat × Str × Str) :=
  match tryLabelAt (cs.drop off) with
  | none => none
  | some (lab, ll) =>
    let ws := countWhile isSpacePy (cs.drop (off + ll))
    if ws = 0 then none
    else
      let rest3 := cs.drop (off + ll + ws)
      match parseNum rest3 with
      | none => none
      | some nlen => some (off + ll + ws + nlen, lab, rest3.take nlen)

/-- A full `TABLE_REF_RE` match attempt at the start of `cs`, where `prev` is
the character just before `cs` (`none` at the start of the line): consumed
length, canonical lowercase label, matched number text. -/
def tryMatchPre (prev : Option Char) (cs : Str) : Option (Nat × Str × Str) :=
  if boundaryOk prev cs.head? = false then none
  else
    let withSee :=
      if lowerPrefixCI (strL "see") cs then
        let ws := countWhile isSpacePy (cs.drop 3)
        if ws = 0 then none else coreMatch (3 + ws) cs
      else none
    match withSee with
    | some r => some r
    | none => coreMatch 0 cs

/-- `make_ref_key(label, number)`: lowercase the label, replace dots by
hyphens in the number, join with a hyphen. -/
def make_ref_key (lab num : Str) : Str :=
  lab.map Char.toLower ++ '-' :: num.map (fun c => if c = '.' then '-' else c)

/-!
## Registry (Python `dict` with `[k] = v` assignment and `setdefault`)
-/

def lookupA : List (Str × Str) → Str → Option Str
  | [], _ => none
  | (k, v) :: r, q => if k = q then some v else lookupA r q

/-- `d[k] = v`: replace an existing binding in place, else append. -/
def setKey : List (Str × Str) → Str → Str → List (Str × Str)
  | [], k, v => [(k, v)]
  | (k', v') :: r, k, v =>
    if k' = k then (k, v) :: r else (k', v') :: setKey r k v

/-- `d.setdefault(k, v)`: bind only if the key is absent. -/
def setDefault (m : List (Str × Str)) (k v : Str) : List (Str × Str) :=
  match lookupA m k with
  | some _ => m
  | none => m ++ [(k, v)]

/-!
## Cross-reference resolver (`normalize_cross_references`,
ingest_docs.py lines 361–385)
-/

/-- The `replace_ref` closure: `if not anchor: return match.group(0)` — the
match is left unchanged when the key is absent *or* bound to the empty
string (Python truthiness); otherwise the matched text is wrapped in a link. -/
def replaceRef (reg : List (Str × Str)) (lab num matched : Str) : Str :=
  match lookupA reg (make_ref_key lab num) with
  | none => matched
  | some anchor =>
    if anchor = [] then matched
    else '[' :: (matched ++ ']' :: '(' :: '#' :: (anchor ++ [')']))

/-- `TABLE_REF_RE.sub(replace_ref, line)`: scan left to right; a match is
replaced and scanning resumes after it (the skip counter consumes the rest of
the matched text); otherwise the character is copied. -/
def subScanL (reg : List (Str × Str)) : Option Char → Nat → Str → Str
  | _, _, [] => []
  | _, k + 1, c :: rest => subScanL reg (some c) k rest
  | prev, 0, c :: rest =>
    match tryMatchPre prev (c :: rest) with
    | some (n, lab, num) =>
      replaceRef reg lab num ((c :: rest).take n) ++ subScanL reg (some c) (n - 1) rest
    | none => c :: subScanL reg (some c) 0 rest

/-- `TABLE_REF_RE.sub(replace_ref, line)` over a whole line. -/
def subRefs (reg : List (Str × Str)) (line : Str) : Str := subScanL reg none 0 line

/-- `TABLE_REF_RE.finditer(text)`: the `(label, number)` groups of the
non-overlapping matches, in order. -/
def refScan : Option Char → Nat → Str → List (Str × Str)
  | _, _, [] => []
  | _, k + 1, c :: rest => refScan (some c) k rest
  | prev, 0, c :: rest =>
    match tryMatchPre prev (c :: rest) with
    | some (n, lab, num) => (lab, num) :: refScan (some c) (n - 1) rest
    | none => refScan (some c) 0 rest

/-- Every reference matched along the scan of the line has an unbound key
(used to state that such a line is left unchanged). -/
def scanUnbound (reg : List (Str × Str)) : Option Char → Nat → Str → Bool
  | _, _, [] => true
  | _, k + 1, c :: rest => scanUnbound reg (some c) k rest
  | prev, 0, c :: rest =>
    match tryMatchPre prev (c :: rest) with
    | some (n, lab, num) =>
      (lookupA reg (make_ref_key lab num)).isNone && scanUnbound reg (some c) (n - 1) rest
    | none => scanUnbound reg (some c) 0 rest

/-!
## Line splitting and joining

The scripts split with `str.splitlines()` and re-join with `"\n"`;
`splitlines` is modelled for `\n` line endings (the only ones the pipeline
produces).
-/

/-- Split on every newline, keeping empty fields. -/
def splitNl : Str → List Str
  | [] => [[]]
  | c :: rest =>
    let r := splitNl rest
    if c = '\n' then [] :: r
    else
      match r with
      | [] => [[c]]
      | h :: t => (c :: h) :: t

/-- Python `s.splitlines()` (for `\n` line endings): no trailing empty line. -/
def pySplitlines (s : Str) : List Str :=
  if s = [] then []
  else
    let p := splitNl s
    if p.getLast? = some [] then p.dropLast else p

/-- `"\n".join(lines)`. -/
def joinNl (lines : List Str) : Str := joinSep ['\n'] lines

/-- Is the stripped line a code-fence toggle (`stripped.startswith("```")`)? -/
def ticksLine (l : Str) : Bool := hasPrefixL (strL "```") (pyStrip l)

/-- The line loop of `normalize_cross_references`: fence-toggle lines and
lines inside a fence pass through verbatim; other lines go through
`TABLE_REF_RE.sub`. -/
def nxLines (reg : List (Str × Str)) (b : Bool) : List Str → List Str
  | [] => []
  | l :: ls =>
    if ticksLine l then l :: nxLines reg (!b) ls
    else if b then l :: nxLines reg b ls
    else subRefs reg l :: nxLines reg b ls

/-- `normalize_cross_references(markdown, ref_targets)`. -/
def normalize_cross_references (md : Str) (reg : List (Str × Str)) : Str :=
  joinNl (nxLines reg false (pySplitlines md))

/-- The `in_code_block` state in which each line is examined (before any
toggle caused by the line itself). -/
def fenceFlags (b : Bool) : List Str → List Bool
  | [] => []
  | l :: ls => b :: fenceFlags (if ticksLine l then !b else b) ls

/-!
## Heading anchor annotator (`slugify`, `dedupe_slug`, `annotate_headings`,
ingest_docs.py lines 165–180 and 327–358)
-/

/-- Collapse runs of hyphens to a single hyphen (one pass). -/
def collapseDashesGo (prevDash : Bool) : Str → Str
  | [] => []
  | c :: rest =>
    if c = '-' then
      if prevDash then collapseDashesGo true rest
      else '-' :: collapseDashesGo true rest
    else c :: collapseDashesGo false rest

/-- `slugify(text)`: lowercase, collapse non-`[a-z0-9]` runs to single
hyphens, strip hyphens at the ends, fall back to `"section"` when empty. -/
def slugify (text : Str) : Str :=
  let dashed := (text.map Char.toLower).map
    (fun c => if c.isLower || c.isDigit then c else '-')
  let s := stripDashes (collapseDashesGo false dashed)
  if s = [] then strL "section" else s

/-- `f"{slug}-{index}"`. -/
def candidateName (slug : Str) (i : Nat) : Str := slug ++ '-' :: natToDec i

/-- The `while True` search of `dedupe_slug`, bounded by a fuel; the fuel
`used.length + 1` provably always suffices (see `findFree_not_mem`), so the
fuel-exhausted branch is unreachable and the bounded search agrees with the
unbounded Python loop. -/
def findFree (slug : Str) (used : List Str) : Nat → Nat → Str
  | 0, i => candidateName slug i
  | fuel + 1, i =>
    let c := candidateName slug i
    if c ∈ used then findFree slug used fuel (i + 1) else c

/-- `dedupe_slug(slug, used)`: returns the chosen anchor and the grown
used-set. -/
def dedupe_slug (slug : Str) (used : List Str) : Str × List Str :=
  if slug ∈ used then
    let a := findFree slug used (used.length + 1) 2
    (a, a :: used)
  else (slug, slug :: used)

/-- Does the first character satisfy `p`? -/
def headIs (p : Char → Bool) (l : Str) : Bool :=
  match l.head? with
  | some c => p c
  | none => false

/-- `HEADING_RE = ^(#{1,6})\s+(.*\S)\s*$`: the heading level and the
stripped heading text. -/
def pyHeadingMatch (line : Str) : Option (Nat × Str) :=
  let hashes := countWhile (· == '#') line
  let rest := line.drop hashes
  if 1 ≤ hashes ∧ hashes ≤ 6 ∧ headIs isSpacePy rest = true ∧ pyStrip rest ≠ []
  then some (hashes, pyStrip rest)
  else none

/-- The emitted anchor marker line `<a id="{anchor}"></a>`. -/
def anchorTag (a : Str) : Str := strL "<a id=\"" ++ a ++ strL "\"></a>"

/-- The per-line state of `annotate_headings`; `anchors` is a ghost trace of
the anchors assigned to headings, in document order (it influences nothing). -/
structure AnnState where
  used : List Str
  refs : List (Str × Str)
  out : List Str
  anchors : List Str

/-- One line of the loop of `annotate_headings`. -/
def annotate_line (st : AnnState) (line : Str) : AnnState :=
  match pyHeadingMatch line with
  | none => { st with out := st.out ++ [line] }
  | some pr =>
    let text := pr.2
    let dd := dedupe_slug (slugify text) st.used
    let anchor := dd.1
    let refs1 := setKey st.refs anchor anchor
    let refs2 :=
      match parseNum text with
      | some e => setDefault refs1 (make_ref_key (strL "section") (text.take e)) anchor
      | none => refs1
    let refs3 := (refScan none 0 text).foldl
      (fun r p => setDefault r (make_ref_key p.1 p.2) anchor) refs2
    { used := dd.2, refs := refs3,
      out := st.out ++ [anchorTag anchor, line],
      anchors := st.anchors ++ [anchor] }

def annInit : AnnState := ⟨[], [], [], []⟩

/-- The fold of `annotate_headings` over the document lines. -/
def annRun (md : Str) : AnnState := (pySplitlines md).foldl annotate_line annInit

/-- `annotate_headings(markdown)`: annotated markdown and registry. -/
def annotate_headings (md : Str) : Str × List (Str × Str) :=
  ((joinNl (annRun md).out), (annRun md).refs)

/-- The anchors the remaining lines will be assigned, given the current
used-set (the ghost trace of `annotate_line` as a function of `used`). -/
def headAnchorsFrom (used : List Str) : List Str → List Str
  | [] => []
  | l :: ls =>
    match pyHeadingMatch l with
    | none => headAnchorsFrom used ls
    | some pr =>
      let dd := dedupe_slug (slugify pr.2) used
      dd.1 :: headAnchorsFrom dd.2 ls

/-!
## Section extractor (`extract_sections`, ingest_docs.py lines 388–441)
-/

structure PySection where
  title : Str
  anchor : Str
  level : Nat
  text : Str
deriving DecidableEq

/-- `ANCHOR_RE = ^<a id="([a-z0-9][a-z0-9-]*)"></a>$` on the stripped line. -/
def pyAnchorMatch (line : Str) : Option Str :=
  if hasPrefixL (strL "<a id=\"") line then
    let rest := line.drop 7
    let n := countWhile (fun c => c.isLower || c.isDigit || c == '-') rest
    if 1 ≤ n ∧ headIs (fun c => c.isLower || c.isDigit) rest = true ∧
        rest.drop n = strL "\"></a>"
    then some (rest.take n)
    else none
  else none

/-- The running state of `extract_sections`. -/
structure SecState where
  pending : Option Str
  title : Str
  anchor : Str
  level : Nat
  lines : List Str
  secs : List PySection

def anyNonBlank (ls : List Str) : Bool := ls.any (fun l => !(pyStrip l).isEmpty)

def mkSection (st : SecState) : PySection :=
  ⟨st.title, st.anchor, st.level, pyStrip (joinNl st.lines)⟩

/-- One line of the loop of `extract_sections`: an anchor marker sets the
pending anchor; a heading flushes the accumulated section and starts a new
one, consuming the pending anchor; any other line accumulates and clears the
pending anchor. -/
def secLine (st : SecState) (line : Str) : SecState :=
  match pyAnchorMatch (pyStrip line) with
  | some a => { st with pending := some a }
  | none =>
    match pyHeadingMatch line with
    | some pr =>
      let secs' :=
        if st.lines ≠ [] ∧ anyNonBlank st.lines = true then st.secs ++ [mkSection st]
        else st.secs
      { pending := none,
        title := pr.2,
        anchor := st.pending.getD (slugify pr.2),
        level := pr.1,
        lines := [line],
        secs := secs' }
    | none => { st with lines := st.lines ++ [line], pending := none }

def secInit : SecState :=
  ⟨none, strL "Document Start", strL "document-start", 1, [], []⟩

/-- `extract_sections(markdown)`. -/
def extract_sections (md : Str) : List PySection :=
  let st := (pySplitlines md).foldl secLine secInit
  let secs :=
    if st.lines ≠ [] ∧ anyNonBlank st.lines = true then st.secs ++ [mkSection st]
    else st.secs
  if secs ≠ [] then secs
  else
    let text := pyStrip md
    if text = [] then []
    else [⟨strL "Document", strL "document", 1, text⟩]

/-!
# Theorems
-/

/-- C9: `chunk_text` is deterministic: it is embedded as a pure function of
the text and the parameters (the Python generator reads no state besides its
arguments), so two runs with the same text, `max_chars`, `overlap` (and
iteration fuel) yield identical chunk sequences. -/
theorem chunk_text_deterministic :
    ∀ (text : Str) (maxChars overlap fuel : Nat),
      chunk_text text maxChars overlap fuel = chunk_text text maxChars overlap fuel :=
  fun _ _ _ _ => rfl

/-- C8: on declared `rows=2, cols=2` with cells `A@(0-0,0-0)`, `B@(0-0,1-1)`,
`C@(1-1,0-1)`, `table_to_matrix` reconstructs `[["A","B"],["C","C"]]`, and
`render_table_markdown` of that matrix has the header row `| A | B |`,
which contains `A | B`. -/
theorem table_roundtrip_example :
    table_to_matrix
        ⟨2, 2, [⟨strL "A", 0, 0, 0, 0⟩, ⟨strL "B", 0, 0, 1, 1⟩,
                ⟨strL "C", 1, 1, 0, 1⟩]⟩ =
      [[strL "A", strL "B"], [strL "C", strL "C"]] ∧
    (render_table_markdown [[strL "A", strL "B"], [strL "C", strL "C"]]).head? =
      some (strL "| A | B |") ∧
    isSubstr (strL "A | B") (strL "| A | B |") = true := by
  refine ⟨by decide, by decide, by decide⟩

/-- Helper for C1: on `"ab cdef"` with `max_chars = 3`, `overlap = 2`, every
iteration of the chunk loop cuts at the space (index 2), emits `"ab"`, and
resets `start` to `max(0, 2 - 2) = 0`: the state never advances, so `fuel`
iterations emit `fuel` copies of `"ab"` without ever reaching the loop exit. -/
theorem chunkLoop_ab_cdef_stuck (n : Nat) :
    chunkLoop (strL "ab cdef") 3 2 n 0 = (List.replicate n (strL "ab"), false) := by
  induction n with
  | zero => rfl
  | succ m ih =>
    have hstep : chunkLoop (strL "ab cdef") 3 2 (m + 1) 0 =
        (strL "ab" :: (chunkLoop (strL "ab cdef") 3 2 m 0).1,
          (chunkLoop (strL "ab cdef") 3 2 m 0).2) := rfl
    rw [hstep, ih]
    simp [List.replicate]

/-- C1: the chunk loop does **not** terminate for every valid parameter pair.
With `max_chars = 3 > 0` and `overlap = 2` (so `0 ≤ overlap < max_chars`) on
the text `"ab cdef"`, the boundary search cuts at the space and the overlap
rewinds the start back to 0 every iteration: for every fuel the loop is still
running (`false` flag) and has emitted one `"ab"` chunk per iteration, i.e.
the Python generator yields `"ab"` forever. -/
theorem chunk_text_diverges_on_valid_params :
    (0 < 3 ∧ 2 < 3) ∧
    ∀ fuel : Nat,
      chunk_text (strL "ab cdef") 3 2 fuel = (List.replicate fuel (strL "ab"), false) := by
  refine ⟨⟨by decide, by decide⟩, fun fuel => ?_⟩
  have h0 : chunk_text (strL "ab cdef") 3 2 fuel = chunkLoop (strL "ab cdef") 3 2 fuel 0 := rfl
  rw [h0]
  exact chunkLoop_ab_cdef_stuck fuel

/-- A string occurs as a substring of anything it suffixes. -/
theorem isSubstr_append_right (pre t : Str) : isSubstr t (pre ++ t) = true := by
  induction pre with
  | nil =>
    cases t with
    | nil => decide
    | cons c r =>
      simp only [List.nil_append, isSubstr, findSub]
      have hp : hasPrefixL (c :: r) (c :: r) = true := by
        simp [hasPrefixL]
      simp [hp]
  | cons p ps ih =>
    simp only [List.cons_append, isSubstr, findSub]
    by_cases hp : hasPrefixL t (p :: (ps ++ t)) = true
    · simp [hp]
    · simp only [Bool.not_eq_true] at hp
      simp only [isSubstr] at ih
      simp [hp, Option.isSome_map, ih]

/-- C7 counterexample to the claim as stated: writing the non-empty cleaned
text `"B"` into a grid position already holding the *different* text `"AB"`
leaves the position holding `"AB"` — not `"AB / B"` as the claim's
different-text rule demands — because the code's guard is the substring test
`text not in current`, not an inequality test. -/
theorem table_write_not_concat_on_substring :
    table_to_matrix ⟨1, 1, [⟨strL "AB", 0, 0, 0, 0⟩, ⟨strL "B", 0, 0, 0, 0⟩]⟩ =
      [[strL "AB"]] ∧
    strL "AB" ≠ strL "AB" ++ strL " / " ++ strL "B" := by
  exact ⟨by decide, by decide⟩

/-- C7 amended: when a spanning cell writes its cleaned non-empty text into a
target grid position, an empty position is set to the text; a position whose
current text does **not contain the incoming text as a substring** becomes
`old / new`; a position whose current text contains the incoming text (in
particular, equal text) is left unchanged; and the write is idempotent —
writing the same text into the same position twice leaves the position as
after the first write. -/
theorem writeVal_spec :
    ∀ current text : Str, text ≠ [] →
      (current = [] → writeVal current text = text) ∧
      (current ≠ [] → isSubstr text current = false →
        writeVal current text = current ++ strL " / " ++ text) ∧
      (current ≠ [] → isSubstr text current = true → writeVal current text = current) ∧
      writeVal (writeVal current text) text = writeVal current text := by
  intro current text htext
  refine ⟨?_, ?_, ?_, ?_⟩
  · intro hc; simp [writeVal, hc]
  · intro hc hsub; simp [writeVal, hc, hsub]
  · intro hc hsub; simp [writeVal, hc, hsub]
  · by_cases hc : current = []
    · subst hc
      have h1 : writeVal [] text = text := by simp [writeVal]
      rw [h1]
      have hself : isSubstr text text = true := by
        have := isSubstr_append_right [] text
        simpa using this
      simp [writeVal, htext, hself]
    · by_cases hsub : isSubstr text current = true
      · have h1 : writeVal current text = current := by simp [writeVal, hc, hsub]
        rw [h1, h1]
      · simp only [Bool.not_eq_true] at hsub
        have h1 : writeVal current text = current ++ strL " / " ++ text := by
          simp [writeVal, hc, hsub]
        rw [h1]
        have hne : current ++ strL " / " ++ text ≠ [] := by
          cases current with
          | nil => exact absurd rfl hc
          | cons a t => simp
        have hsub2 : isSubstr text (current ++ strL " / " ++ text) = true := by
          have := isSubstr_append_right (current ++ strL " / ") text
          simpa [List.append_assoc] using this
        have hcneg : ¬(current ++ strL " / " ++ text ≠ [] ∧
            isSubstr text (current ++ strL " / " ++ text) = false) := by
          intro hand
          rw [hsub2] at hand
          exact absurd hand.2 (by decide)
        unfold writeVal
        rw [if_neg hcneg, if_neg hne]

/-- Witness for `writeVal_spec` at `current = "X"`, `text = "Y"`. -/
theorem writeVal_spec_witness :
    writeVal (strL "X") (strL "Y") = strL "X" ++ strL " / " ++ strL "Y" ∧
    writeVal (writeVal (strL "X") (strL "Y")) (strL "Y") =
      writeVal (strL "X") (strL "Y") :=
  ⟨(writeVal_spec (strL "X") (strL "Y") (by decide)).2.1 (by decide) (by decide),
   (writeVal_spec (strL "X") (strL "Y") (by decide)).2.2.2⟩

/-- `pyStrip` never lengthens a string. -/
theorem pyStrip_length_le (l : Str) : (pyStrip l).length ≤ l.length := by
  unfold pyStrip
  calc ((l.dropWhile isSpacePy).reverse.dropWhile isSpacePy).reverse.length
      = ((l.dropWhile isSpacePy).reverse.dropWhile isSpacePy).length := by
        rw [List.length_reverse]
    _ ≤ (l.dropWhile isSpacePy).reverse.length :=
        (List.dropWhile_suffix isSpacePy).length_le
    _ = (l.dropWhile isSpacePy).length := by rw [List.length_reverse]
    _ ≤ l.length := (List.dropWhile_suffix isSpacePy).length_le

/-- The head of a `dropWhile` does not satisfy the predicate. -/
theorem head?_dropWhile_not (p : Char → Bool) :
    ∀ (l : Str) (c : Char), (l.dropWhile p).head? = some c → p c = false := by
  intro l
  induction l with
  | nil => intro c h; simp [List.dropWhile] at h
  | cons a t ih =>
    intro c h
    rw [List.dropWhile_cons] at h
    by_cases hp : p a = true
    · rw [if_pos hp] at h
      exact ih c h
    · rw [if_neg hp] at h
      simp only [List.head?_cons, Option.some.injEq] at h
      rw [← h]
      exact Bool.not_eq_true _ |>.mp hp

/-- A non-empty suffix has the same last element as the whole list. -/
theorem getLast?_of_suffix {l m : Str} (h : l <:+ m) (hne : l ≠ []) :
    l.getLast? = m.getLast? := by
  obtain ⟨pre, rfl⟩ := h
  induction pre with
  | nil => rfl
  | cons a t ih =>
    have htl : t ++ l ≠ [] := by
      intro hx
      rcases List.append_eq_nil.mp hx with ⟨-, h2⟩
      exact hne h2
    rw [List.cons_append]
    cases hx : t ++ l with
    | nil => exact absurd hx htl
    | cons b r =>
      rw [List.getLast?_cons_cons, ← hx]
      exact ih

/-- The result of `pyStrip` has no whitespace at either end. -/
theorem strippedB_pyStrip (l : Str) : strippedB (pyStrip l) = true := by
  unfold strippedB pyStrip
  rw [Bool.and_eq_true]
  constructor
  · cases hh : ((l.dropWhile isSpacePy).reverse.dropWhile isSpacePy).reverse.head? with
    | none => simp
    | some c =>
      rw [List.head?_reverse] at hh
      have hne : (l.dropWhile isSpacePy).reverse.dropWhile isSpacePy ≠ [] := by
        intro hx
        rw [hx] at hh
        exact Option.noConfusion hh
      have hsuf := getLast?_of_suffix (List.dropWhile_suffix isSpacePy) hne
      rw [hsuf, List.getLast?_reverse] at hh
      have := head?_dropWhile_not isSpacePy l c hh
      simp [this]
  · cases hh : ((l.dropWhile isSpacePy).reverse.dropWhile isSpacePy).reverse.getLast? with
    | none => simp
    | some c =>
      rw [List.getLast?_reverse] at hh
      have := head?_dropWhile_not isSpacePy (l.dropWhile isSpacePy).reverse c hh
      simp [this]

/-- `rfindGo` never returns an index above its starting point. -/
theorem rfindGo_le (s sub : Str) (a : Nat) :
    ∀ (i j : Nat), rfindGo s sub a i = some j → j ≤ i := by
  intro i
  induction i with
  | zero =>
    intro j h
    unfold rfindGo at h
    split at h
    · exact Option.noConfusion h
    · split at h
      · exact Nat.le_of_eq (Option.some.injEq .. ▸ h.symm ▸ rfl)
      · exact Option.noConfusion h
  | succ n ih =>
    intro j h
    unfold rfindGo at h
    split at h
    · exact Option.noConfusion h
    · split at h
      · cases h; exact Nat.le_refl _
      · exact Nat.le_succ_of_le (ih j h)

/-- A non-negative `rfind` result is strictly below the upper search bound. -/
theorem pyRfind_lt_of_nonneg (s sub : Str) (a b : Nat) (hsub : sub ≠ [])
    (h : 0 ≤ pyRfind s sub a b) : pyRfind s sub a b < (b : Int) := by
  have hlen : 1 ≤ sub.length := List.length_pos.mpr hsub
  unfold pyRfind at h ⊢
  by_cases hm : sub.length ≤ min b s.length
  · rw [if_pos hm] at h ⊢
    cases hfind : rfindGo s sub a (min b s.length - sub.length) with
    | none =>
      rw [hfind] at h
      exact absurd h (by decide)
    | some i =>
      rw [hfind] at h
      dsimp only at h ⊢
      have hle := rfindGo_le s sub a _ i hfind
      have : i < b := by omega
      exact_mod_cast this
  · rw [if_neg hm] at h
    exact absurd h (by decide)

/-- The cut point of one chunk iteration never exceeds `start + max_chars`. -/
theorem chunkStop_le (s : Str) (mc start : Nat) :
    chunkStop s mc start ≤ start + mc := by
  unfold chunkStop
  by_cases h0 : min s.length (start + mc) < s.length
  · rw [if_pos h0]
    set x1 := pyRfind s (strL "\n\n") (start + mc / 2) (min s.length (start + mc)) with hx1
    set x2 := pyRfind s (strL "\n") (start + mc / 2) (min s.length (start + mc)) with hx2
    set x3 := pyRfind s (strL " ") (start + mc / 2) (min s.length (start + mc)) with hx3
    by_cases hcut : max x1 (max x2 x3) > ((start + mc / 3 : Nat) : Int)
    · rw [if_pos hcut]
      have hpos : (0 : Int) ≤ max x1 (max x2 x3) := le_trans (by positivity) (le_of_lt hcut)
      have hlt : max x1 (max x2 x3) < ((min s.length (start + mc) : Nat) : Int) := by
        rcases max_choice x1 (max x2 x3) with hc | hc
        · rw [hc] at hpos ⊢
          exact pyRfind_lt_of_nonneg s (strL "\n\n") _ _ (by decide) hpos
        · rw [hc] at hpos ⊢
          rcases max_choice x2 x3 with hd | hd
          · rw [hd] at hpos ⊢
            exact pyRfind_lt_of_nonneg s (strL "\n") _ _ (by decide) hpos
          · rw [hd] at hpos ⊢
            exact pyRfind_lt_of_nonneg s (strL " ") _ _ (by decide) hpos
      have hmle : min s.length (start + mc) ≤ start + mc := min_le_right ..
      omega
    · rw [if_neg hcut]
      exact min_le_right ..
  · rw [if_neg h0]
    exact min_le_right ..

/-- Unfolding of one successful chunk-loop iteration. -/
theorem chunkLoop_succ_eq (s : Str) (mc ov f start : Nat) (h : start < s.length) :
    chunkLoop s mc ov (f + 1) start =
      ((if pyStrip (pySlice s start (chunkStop s mc start)) ≠ []
        then pyStrip (pySlice s start (chunkStop s mc start)) ::
          (if chunkStop s mc start ≥ s.length then ([], true)
           else chunkLoop s mc ov f (chunkStop s mc start - ov)).1
        else (if chunkStop s mc start ≥ s.length then ([], true)
              else chunkLoop s mc ov f (chunkStop s mc start - ov)).1),
       (if chunkStop s mc start ≥ s.length then (([] : List Str), true)
        else chunkLoop s mc ov f (chunkStop s mc start - ov)).2) := by
  rw [chunkLoop, if_pos h]

/-- Every chunk emitted by the loop is non-empty, at most `max_chars` long
and stripped (any fuel, any start offset). -/
theorem chunkLoop_piece_mem (s : Str) (mc ov : Nat) :
    ∀ (fuel start : Nat) (p : Str), p ∈ (chunkLoop s mc ov fuel start).1 →
      p ≠ [] ∧ p.length ≤ mc ∧ strippedB p = true := by
  intro fuel
  induction fuel with
  | zero =>
    intro start p hp
    rw [chunkLoop] at hp
    by_cases h : start < s.length
    · rw [if_pos h] at hp; exact absurd hp (List.not_mem_nil p)
    · rw [if_neg h] at hp; exact absurd hp (List.not_mem_nil p)
  | succ f ih =>
    intro start p hp
    by_cases h : start < s.length
    · rw [chunkLoop_succ_eq s mc ov f start h] at hp
      have hrest : ∀ q, q ∈ (if chunkStop s mc start ≥ s.length then (([] : List Str), true)
          else chunkLoop s mc ov f (chunkStop s mc start - ov)).1 →
          q ≠ [] ∧ q.length ≤ mc ∧ strippedB q = true := by
        intro q hq
        by_cases hstop : chunkStop s mc start ≥ s.length
        · rw [if_pos hstop] at hq; exact absurd hq (List.not_mem_nil q)
        · rw [if_neg hstop] at hq; exact ih _ q hq
      by_cases hpiece : pyStrip (pySlice s start (chunkStop s mc start)) ≠ []
      · rw [if_pos hpiece] at hp
        rcases List.mem_cons.mp hp with rfl | hmem
        · refine ⟨hpiece, ?_, strippedB_pyStrip _⟩
          calc (pyStrip (pySlice s start (chunkStop s mc start))).length
              ≤ (pySlice s start (chunkStop s mc start)).length := pyStrip_length_le _
            _ ≤ chunkStop s mc start - start := by
                unfold pySlice
                rw [List.length_take]
                exact min_le_left ..
            _ ≤ mc := by
                have := chunkStop_le s mc start
                omega
        · exact hrest p hmem
      · rw [if_neg hpiece] at hp
        exact hrest p hp
    · rw [chunkLoop, if_neg h] at hp
      exact absurd hp (List.not_mem_nil p)

/-- C10: for every input text, `max_chars > 0` and any overlap, every chunk
emitted by `chunk_text` is a non-empty string of length at most `max_chars`
with no leading or trailing whitespace. -/
theorem chunk_text_pieces_bounded :
    ∀ (text : Str) (maxChars overlap fuel : Nat), 0 < maxChars →
      ∀ p ∈ (chunk_text text maxChars overlap fuel).1,
        p ≠ [] ∧ p.length ≤ maxChars ∧ strippedB p = true := by
  intro text mc ov fuel _ p hp
  unfold chunk_text at hp
  by_cases hn : pyStrip text = []
  · rw [if_pos hn] at hp
    exact absurd hp (List.not_mem_nil p)
  · rw [if_neg hn] at hp
    exact chunkLoop_piece_mem (pyStrip text) mc ov fuel 0 p hp

/-- Witness for `chunk_text_pieces_bounded`: the first chunk of
`"hello world"` at `max_chars = 5`, `overlap = 1`. -/
theorem chunk_text_pieces_bounded_witness :
    strL "hello" ≠ [] ∧ (strL "hello").length ≤ 5 ∧ strippedB (strL "hello") = true :=
  chunk_text_pieces_bounded (strL "hello world") 5 1 10 (by decide) (strL "hello")
    (by decide)

/-- Stripping a string whose first character is not whitespace keeps that
first character. -/
theorem head?_pyStrip_of_not_space (c : Char) (l : Str) (hc : isSpacePy c = false) :
    (pyStrip (c :: l)).head? = some c := by
  unfold pyStrip
  have h1 : (c :: l).dropWhile isSpacePy = c :: l := by
    rw [List.dropWhile_cons, if_neg (by simp [hc])]
  rw [h1]
  have hne : (c :: l).reverse.dropWhile isSpacePy ≠ [] := by
    intro hx
    have hall := List.dropWhile_eq_nil_iff.mp hx
    have hmem : c ∈ (c :: l).reverse := by
      rw [List.mem_reverse]
      exact List.mem_cons_self ..
    have := hall c hmem
    rw [hc] at this
    exact Bool.false_ne_true this
  rw [List.head?_reverse]
  have hsuf := getLast?_of_suffix (List.dropWhile_suffix isSpacePy) hne
  rw [hsuf, List.getLast?_reverse]
  rfl

/-- A heading line starts with `#`. -/
theorem heading_head_hash (lh : Str) (pr : Nat × Str)
    (h : pyHeadingMatch lh = some pr) : ∃ t, lh = '#' :: t := by
  simp only [pyHeadingMatch] at h
  split at h
  · next hcond =>
    obtain ⟨h1, -, -, -⟩ := hcond
    cases lh with
    | nil => simp [countWhile] at h1
    | cons a t =>
      refine ⟨t, ?_⟩
      unfold countWhile at h1
      rw [List.takeWhile_cons] at h1
      by_cases ha : (a == '#') = true
      · rw [beq_iff_eq] at ha
        rw [ha]
      · rw [if_neg (by simp [ha])] at h1
        simp at h1
  · exact Option.noConfusion h

/-- A heading line is not an anchor marker line: `ANCHOR_RE` cannot match its
stripped form, which still starts with `#`. -/
theorem heading_not_anchorline (lh : Str) (pr : Nat × Str)
    (h : pyHeadingMatch lh = some pr) : pyAnchorMatch (pyStrip lh) = none := by
  obtain ⟨t, rfl⟩ := heading_head_hash lh pr h
  have hh : (pyStrip ('#' :: t)).head? = some '#' :=
    head?_pyStrip_of_not_space '#' t (by decide)
  cases hs : pyStrip ('#' :: t) with
  | nil => rw [hs] at hh; exact Option.noConfusion hh
  | cons a r =>
    rw [hs] at hh
    simp only [List.head?_cons, Option.some.injEq] at hh
    subst hh
    have hpref : hasPrefixL (strL "<a id=\"") ('#' :: r) = false := by
      unfold hasPrefixL
      rw [Bool.eq_false_iff]
      intro hcontra
      rw [beq_iff_eq] at hcontra
      have h7 : (strL "<a id=\"").length = 7 := by decide
      rw [h7, List.take_succ_cons] at hcontra
      have h2 : some '#' = (strL "<a id=\"").head? := by
        simpa using congrArg List.head? hcontra
      exact absurd h2 (by decide)
    simp [pyAnchorMatch, hpref]

/-- C6 counterexample to the claim as stated: the Heading Anchor Annotator
(`annotate_headings`) does **not** honor a pending anchor marker placed
immediately before a heading.  On the input whose lines are
`<a id="my-anchor"></a>` and `# Foo`, the annotator assigns the heading the
derived slug `foo` (not `my-anchor`), inserts its own marker between the
upstream marker and the heading, and its registry never mentions
`my-anchor`. -/
theorem annotate_headings_ignores_pending_anchor :
    (annRun (strL "<a id=\"my-anchor\"></a>\n# Foo")).anchors = [strL "foo"] ∧
    (annRun (strL "<a id=\"my-anchor\"></a>\n# Foo")).out =
      [strL "<a id=\"my-anchor\"></a>", strL "<a id=\"foo\"></a>", strL "# Foo"] ∧
    lookupA (annRun (strL "<a id=\"my-anchor\"></a>\n# Foo")).refs (strL "my-anchor") =
      none ∧
    strL "foo" ≠ strL "my-anchor" := by
  refine ⟨by decide, by decide, by decide, by decide⟩

/-- C6 amended: the pending anchor is honored by the Section Extractor, not
by the Heading Anchor Annotator.  In `extract_sections`, an anchor marker
line consumed immediately before a heading line leaves the accumulated
section lines untouched and makes the heading use the marker's id instead of
the slug derived from the heading text; it is consumed exactly once: the
pending anchor is cleared, and a heading processed right after uses the
derived slug again. -/
theorem extract_sections_honors_pending_anchor :
    ∀ (st : SecState) (la lh a tl : Str) (lvl : Nat),
      pyAnchorMatch (pyStrip la) = some a →
      pyHeadingMatch lh = some (lvl, tl) →
      (secLine st la).lines = st.lines ∧
      (secLine (secLine st la) lh).anchor = a ∧
      (secLine (secLine st la) lh).pending = none ∧
      (∀ (lh2 tl2 : Str) (lvl2 : Nat), pyHeadingMatch lh2 = some (lvl2, tl2) →
        (secLine (secLine (secLine st la) lh) lh2).anchor = slugify tl2) := by
  intro st la lh a tl lvl hA hH
  have h1 : secLine st la = { st with pending := some a } := by
    unfold secLine
    rw [hA]
  have hHnotA := heading_not_anchorline lh (lvl, tl) hH
  have h2 : secLine { st with pending := some a } lh =
      { pending := none, title := tl, anchor := a, level := lvl, lines := [lh],
        secs := if st.lines ≠ [] ∧ anyNonBlank st.lines = true
                then st.secs ++ [mkSection { st with pending := some a }]
                else st.secs } := by
    unfold secLine
    rw [hHnotA, hH]
    rfl
  refine ⟨by rw [h1], by rw [h1, h2], by rw [h1, h2], ?_⟩
  intro lh2 tl2 lvl2 hH2
  have hH2notA := heading_not_anchorline lh2 (lvl2, tl2) hH2
  rw [h1, h2]
  unfold secLine
  rw [hH2notA, hH2]
  rfl

/-- Witness for `extract_sections_honors_pending_anchor`: marker
`<a id="my-anchor"></a>` before `# Foo`, then `# Bar`. -/
theorem extract_sections_honors_pending_anchor_witness :
    (secLine secInit (strL "<a id=\"my-anchor\"></a>")).lines = secInit.lines ∧
    (secLine (secLine secInit (strL "<a id=\"my-anchor\"></a>")) (strL "# Foo")).anchor =
      strL "my-anchor" ∧
    (secLine (secLine secInit (strL "<a id=\"my-anchor\"></a>")) (strL "# Foo")).pending =
      none ∧
    (secLine (secLine (secLine secInit (strL "<a id=\"my-anchor\"></a>")) (strL "# Foo"))
        (strL "# Bar")).anchor = slugify (strL "Bar") := by
  have h := extract_sections_honors_pending_anchor secInit
    (strL "<a id=\"my-anchor\"></a>") (strL "# Foo") (strL "my-anchor") (strL "Foo") 1
    (by decide) (by decide)
  exact ⟨h.1, h.2.1, h.2.2.1, h.2.2.2 (strL "# Bar") (strL "Bar") 1 (by decide)⟩

/-!
## Registry lemmas and slug-deduplication facts
-/

/-- Assigning a different key leaves a lookup unchanged. -/
theorem lookupA_setKey_ne (m : List (Str × Str)) (k2 v2 k : Str) (h : k2 ≠ k) :
    lookupA (setKey m k2 v2) k = lookupA m k := by
  induction m with
  | nil => simp [setKey, lookupA, h]
  | cons p r ih =>
    unfold setKey
    by_cases hp : p.1 = k2
    · rw [if_pos hp]
      unfold lookupA
      rw [if_neg h, if_neg (hp ▸ h)]
    · rw [if_neg hp]
      unfold lookupA
      by_cases hk : p.1 = k
      · rw [if_pos hk, if_pos hk]
      · rw [if_neg hk, if_neg hk]
        exact ih

/-- A lookup that succeeds still succeeds after appending bindings. -/
theorem lookupA_append_of_some (m n : List (Str × Str)) (k v : Str)
    (h : lookupA m k = some v) : lookupA (m ++ n) k = some v := by
  induction m with
  | nil => simp [lookupA] at h
  | cons p r ih =>
    obtain ⟨pk, pv⟩ := p
    simp only [lookupA, List.cons_append] at h ⊢
    by_cases hk : pk = k
    · rw [if_pos hk] at h ⊢
      exact h
    · rw [if_neg hk] at h ⊢
      exact ih h

/-- `setdefault` never changes an existing binding. -/
theorem lookupA_setDefault_of_some (m : List (Str × Str)) (k2 v2 k v : Str)
    (h : lookupA m k = some v) : lookupA (setDefault m k2 v2) k = some v := by
  unfold setDefault
  cases hx : lookupA m k2 with
  | some w => exact h
  | none => exact lookupA_append_of_some m [(k2, v2)] k v h

/-- A fold of `setdefault` registrations never changes an existing binding. -/
theorem lookupA_foldl_setDefault (ps : List (Str × Str)) (anchor k v : Str) :
    ∀ (m : List (Str × Str)), lookupA m k = some v →
      lookupA (ps.foldl (fun r p => setDefault r (make_ref_key p.1 p.2) anchor) m) k =
        some v := by
  induction ps with
  | nil => intro m h; exact h
  | cons p pr ih =>
    intro m h
    rw [List.foldl_cons]
    exact ih _ (lookupA_setDefault_of_some m _ _ k v h)

/-- The fuelled decimal rendering does not depend on the fuel, once the fuel
exceeds the number. -/
theorem natToDecGo_stable : ∀ (n f g : Nat), n < f → n < g →
    natToDecGo f n = natToDecGo g n := by
  intro n
  induction n using Nat.strong_induction_on with
  | _ n ih =>
    intro f g hf hg
    cases f with
    | zero => omega
    | succ fp =>
      cases g with
      | zero => omega
      | succ gp =>
        show (if n < 10 then [digitChar10 n]
              else natToDecGo fp (n / 10) ++ [digitChar10 (n % 10)]) =
            (if n < 10 then [digitChar10 n]
              else natToDecGo gp (n / 10) ++ [digitChar10 (n % 10)])
        by_cases h10 : n < 10
        · rw [if_pos h10, if_pos h10]
        · rw [if_neg h10, if_neg h10]
          have hdiv : n / 10 < n := Nat.div_lt_self (by omega) (by omega)
          rw [ih (n / 10) hdiv fp gp (by omega) (by omega)]

/-- Unfolding of `natToDec` below ten. -/
theorem natToDec_lt10 (n : Nat) (h : n < 10) : natToDec n = [digitChar10 n] := by
  have h1 : natToDec n =
      if n < 10 then [digitChar10 n]
      else natToDecGo n (n / 10) ++ [digitChar10 (n % 10)] := rfl
  rw [h1, if_pos h]

/-- Unfolding of `natToDec` at ten and above. -/
theorem natToDec_ge10 (n : Nat) (h : ¬n < 10) :
    natToDec n = natToDec (n / 10) ++ [digitChar10 (n % 10)] := by
  have h1 : natToDec n =
      if n < 10 then [digitChar10 n]
      else natToDecGo n (n / 10) ++ [digitChar10 (n % 10)] := rfl
  rw [h1, if_neg h]
  congr 1
  exact natToDecGo_stable (n / 10) n (n / 10 + 1)
    (Nat.div_lt_self (by omega) (by omega)) (by omega)

/-- Decimal renderings are never empty. -/
theorem natToDec_ne_nil (n : Nat) : natToDec n ≠ [] := by
  by_cases h10 : n < 10
  · rw [natToDec_lt10 n h10]; simp
  · rw [natToDec_ge10 n h10]; simp

/-- Distinct digits below ten render as distinct characters. -/
theorem digitChar10_inj_lt (a b : Nat) (ha : a < 10) (hb : b < 10)
    (h : digitChar10 a = digitChar10 b) : a = b := by
  have hfin : ∀ (x y : Fin 10), digitChar10 x.val = digitChar10 y.val → x = y := by decide
  exact congrArg Fin.val (hfin ⟨a, ha⟩ ⟨b, hb⟩ h)

/-- Decimal rendering is injective. -/
theorem natToDec_inj : ∀ (a b : Nat), natToDec a = natToDec b → a = b := by
  intro a
  induction a using Nat.strong_induction_on with
  | _ a ih =>
    intro b h
    by_cases ha : a < 10
    · by_cases hb : b < 10
      · rw [natToDec_lt10 a ha, natToDec_lt10 b hb] at h
        injection h with h1 h2
        exact digitChar10_inj_lt a b ha hb h1
      · exfalso
        rw [natToDec_lt10 a ha, natToDec_ge10 b hb] at h
        have hlen := congrArg List.length h
        simp at hlen
        exact absurd hlen (natToDec_ne_nil (b / 10))
    · by_cases hb : b < 10
      · exfalso
        rw [natToDec_ge10 a ha, natToDec_lt10 b hb] at h
        have hlen := congrArg List.length h
        simp at hlen
        exact absurd hlen (natToDec_ne_nil (a / 10))
      · rw [natToDec_ge10 a ha, natToDec_ge10 b hb] at h
        obtain ⟨hpre, hsuf⟩ := List.append_inj' h (by simp)
        have hdiv := ih (a / 10) (Nat.div_lt_self (by omega) (by omega)) (b / 10) hpre
        injection hsuf with hd1 hd2
        have hmod := digitChar10_inj_lt (a % 10) (b % 10)
          (Nat.mod_lt _ (by omega)) (Nat.mod_lt _ (by omega)) hd1
        omega

/-- `f"{slug}-{i}"` is injective in the index. -/
theorem candidateName_inj (slug : Str) (i j : Nat)
    (h : candidateName slug i = candidateName slug j) : i = j := by
  unfold candidateName at h
  have h1 := List.append_cancel_left h
  injection h1 with h2 h3
  exact natToDec_inj i j h3

/-- Pigeonhole: among any `used.length + 1` consecutive candidate names, one
is not in `used`. -/
theorem exists_free_candidate (slug : Str) (used : List Str) (i : Nat) :
    ∃ j, i ≤ j ∧ j < i + (used.length + 1) ∧ candidateName slug j ∉ used := by
  by_contra hcon
  push_neg at hcon
  set L := (List.range (used.length + 1)).map (fun k => candidateName slug (i + k)) with hL
  have hnd : L.Nodup := by
    refine (List.nodup_range _).map ?_
    intro x y hxy
    have := candidateName_inj slug (i + x) (i + y) hxy
    omega
  have hsub : ∀ x ∈ L, x ∈ used := by
    intro x hx
    rw [hL, List.mem_map] at hx
    obtain ⟨k, hk, rfl⟩ := hx
    rw [List.mem_range] at hk
    exact hcon (i + k) (by omega) (by omega)
  have h1 : L.toFinset.card = L.length := List.toFinset_card_of_nodup hnd
  have h2 : L.toFinset ⊆ used.toFinset := by
    intro x hx
    rw [List.mem_toFinset] at hx ⊢
    exact hsub x hx
  have h3 := Finset.card_le_card h2
  have h4 := List.toFinset_card_le used
  have h5 : L.length = used.length + 1 := by rw [hL]; simp
  omega

/-- The bounded search returns a free candidate whenever one exists within
the fuel. -/
theorem findFree_not_mem (slug : Str) (used : List Str) :
    ∀ (fuel i : Nat), (∃ j, i ≤ j ∧ j < i + fuel ∧ candidateName slug j ∉ used) →
      findFree slug used fuel i ∉ used := by
  intro fuel
  induction fuel with
  | zero =>
    intro i h
    obtain ⟨j, h1, h2, h3⟩ := h
    omega
  | succ f ih =>
    intro i h
    unfold findFree
    dsimp only
    by_cases hc : candidateName slug i ∈ used
    · rw [if_pos hc]
      apply ih
      obtain ⟨j, h1, h2, h3⟩ := h
      refine ⟨j, ?_, by omega, h3⟩
      rcases Nat.eq_or_lt_of_le h1 with rfl | hlt
      · exact absurd hc h3
      · omega
    · rw [if_neg hc]
      exact hc

/-- `dedupe_slug` always returns an anchor that is not yet used (the fuel of
the bounded search provably suffices). -/
theorem dedupe_slug_fresh (slug : Str) (used : List Str) :
    (dedupe_slug slug used).1 ∉ used := by
  unfold dedupe_slug
  by_cases h : slug ∈ used
  · rw [if_pos h]
    exact findFree_not_mem slug used (used.length + 1) 2 (exists_free_candidate slug used 2)
  · rw [if_neg h]
    exact h

/-- `dedupe_slug` grows the used-set by exactly the returned anchor. -/
theorem dedupe_slug_used_eq (slug : Str) (used : List Str) :
    (dedupe_slug slug used).2 = (dedupe_slug slug used).1 :: used := by
  unfold dedupe_slug
  split <;> rfl

/-- One annotation step never changes an existing binding of a key other
than the heading's freshly deduplicated anchor: `setdefault` registrations
cannot rebind, and the only assignment is `refs[anchor] = anchor`. -/
theorem annotate_line_preserves_binding (st : AnnState) (l k v : Str)
    (hv : lookupA st.refs k = some v)
    (hk : ∀ pr : Nat × Str, pyHeadingMatch l = some pr →
      k ≠ (dedupe_slug (slugify pr.2) st.used).1) :
    lookupA (annotate_line st l).refs k = some v := by
  cases hm : pyHeadingMatch l with
  | none =>
    unfold annotate_line
    rw [hm]
    exact hv
  | some pr =>
    have hne := hk pr hm
    unfold annotate_line
    rw [hm]
    dsimp only
    apply lookupA_foldl_setDefault
    have h1 : lookupA (setKey st.refs (dedupe_slug (slugify pr.2) st.used).1
        (dedupe_slug (slugify pr.2) st.used).1) k = some v := by
      rw [lookupA_setKey_ne st.refs _ _ k (Ne.symm hne)]
      exact hv
    cases hp : parseNum pr.2 with
    | none => exact h1
    | some e => exact lookupA_setDefault_of_some _ _ _ k v h1

/-- C2 counterexample to the claim as stated: on the document with headings
`# 4.2 Overview` and `# Section 4.2`, the first heading binds the key
`section-4-2` to its anchor `4-2-overview`; the second heading's own
derived anchor happens to be the string `section-4-2`, and the unconditional
assignment `ref_targets[anchor] = anchor` rebinds the already-bound key to
`section-4-2` — the anchor bound is that of the *second* heading. -/
theorem annotate_registry_rebinds_on_anchor_collision :
    lookupA (annRun (strL "# 4.2 Overview")).refs (strL "section-4-2") =
      some (strL "4-2-overview") ∧
    lookupA (annRun (strL "# 4.2 Overview\n# Section 4.2")).refs (strL "section-4-2") =
      some (strL "section-4-2") ∧
    strL "section-4-2" ≠ strL "4-2-overview" := by
  refine ⟨by decide, by decide, by decide⟩

/-- Unfolding of the anchor trace over one line. -/
theorem headAnchorsFrom_cons (used : List Str) (l : Str) (ls : List Str) :
    headAnchorsFrom used (l :: ls) =
      match pyHeadingMatch l with
      | none => headAnchorsFrom used ls
      | some pr =>
        (dedupe_slug (slugify pr.2) used).1 ::
          headAnchorsFrom (dedupe_slug (slugify pr.2) used).2 ls := rfl

/-- C2 amended: first-writer-wins holds for every key that is not the
freshly deduplicated own anchor of a later heading: once a key is bound, no
later `setdefault` registration (a `section-<n>`, `table-<n>`, `figure-<n>`
or `chapter-<n>` key) rebinds it, and a later heading's own-anchor assignment rebinds only the key
equal to that heading's fresh anchor (which can coincide with an earlier
numeric/label key, as in the counterexample). -/
theorem annotate_registry_first_writer_wins :
    ∀ (lines : List Str) (st : AnnState) (k v : Str),
      lookupA st.refs k = some v →
      k ∉ headAnchorsFrom st.used lines →
      lookupA ((lines.foldl annotate_line st)).refs k = some v := by
  intro lines
  induction lines with
  | nil =>
    intro st k v hv _
    exact hv
  | cons l ls ih =>
    intro st k v hv hk
    rw [List.foldl_cons]
    cases hm : pyHeadingMatch l with
    | none =>
      have htrace : headAnchorsFrom st.used (l :: ls) = headAnchorsFrom st.used ls := by
        rw [headAnchorsFrom_cons, hm]
      have huse : (annotate_line st l).used = st.used := by
        unfold annotate_line
        rw [hm]
      apply ih
      · exact annotate_line_preserves_binding st l k v hv
          (fun pr hpr => by rw [hm] at hpr; exact Option.noConfusion hpr)
      · rw [huse]
        rw [htrace] at hk
        exact hk
    | some pr =>
      have htrace : headAnchorsFrom st.used (l :: ls) =
          (dedupe_slug (slugify pr.2) st.used).1 ::
            headAnchorsFrom (dedupe_slug (slugify pr.2) st.used).2 ls := by
        rw [headAnchorsFrom_cons, hm]
      rw [htrace] at hk
      have hk1 : k ≠ (dedupe_slug (slugify pr.2) st.used).1 :=
        fun he => hk (he ▸ List.mem_cons_self ..)
      have hk2 : k ∉ headAnchorsFrom (dedupe_slug (slugify pr.2) st.used).2 ls :=
        fun hmem => hk (List.mem_cons_of_mem _ hmem)
      have huse : (annotate_line st l).used = (dedupe_slug (slugify pr.2) st.used).2 := by
        unfold annotate_line
        rw [hm]
      apply ih
      · exact annotate_line_preserves_binding st l k v hv
          (fun pr' hpr' => by rw [hm] at hpr'; cases hpr'; exact hk1)
      · rw [huse]
        exact hk2

/-- Witness for `annotate_registry_first_writer_wins`: after `# 4.2 Overview`
has bound `section-4-2` to `4-2-overview`, processing a further heading
`# Another` (whose fresh anchor is `another`) preserves the binding. -/
theorem annotate_registry_first_writer_wins_witness :
    lookupA (([strL "# Another"].foldl annotate_line
        (annRun (strL "# 4.2 Overview"))).refs) (strL "section-4-2") =
      some (strL "4-2-overview") :=
  annotate_registry_first_writer_wins [strL "# Another"]
    (annRun (strL "# 4.2 Overview")) (strL "section-4-2") (strL "4-2-overview")
    (by decide) (by decide)

/-- Anchors assigned so far are all in the used-set, and pairwise distinct:
each heading's anchor is fresh by `dedupe_slug_fresh` and then joins the
used-set. -/
theorem annRun_anchors_invariant :
    ∀ (lines : List Str) (st : AnnState),
      st.anchors.Nodup → (∀ a ∈ st.anchors, a ∈ st.used) →
      (lines.foldl annotate_line st).anchors.Nodup ∧
        ∀ a ∈ (lines.foldl annotate_line st).anchors,
          a ∈ (lines.foldl annotate_line st).used := by
  intro lines
  induction lines with
  | nil =>
    intro st h1 h2
    exact ⟨h1, h2⟩
  | cons l ls ih =>
    intro st h1 h2
    rw [List.foldl_cons]
    cases hm : pyHeadingMatch l with
    | none =>
      have he : annotate_line st l = { st with out := st.out ++ [l] } := by
        unfold annotate_line
        rw [hm]
      rw [he]
      exact ih _ h1 h2
    | some pr =>
      have hanch : (annotate_line st l).anchors =
          st.anchors ++ [(dedupe_slug (slugify pr.2) st.used).1] := by
        unfold annotate_line
        rw [hm]
      have huse : (annotate_line st l).used = (dedupe_slug (slugify pr.2) st.used).2 := by
        unfold annotate_line
        rw [hm]
      apply ih
      · rw [hanch]
        rw [List.nodup_append]
        refine ⟨h1, List.nodup_singleton _, ?_⟩
        intro a ha hmem
        rw [List.mem_singleton] at hmem
        subst hmem
        exact dedupe_slug_fresh (slugify pr.2) st.used (h2 _ ha)
      · rw [hanch, huse, dedupe_slug_used_eq]
        intro a ha
        rcases List.mem_append.mp ha with h | h
        · exact List.mem_cons_of_mem _ (h2 a h)
        · rw [List.mem_singleton] at h
          subst h
          exact List.mem_cons_self ..

/-- C3: the sequence of anchors `annotate_headings` assigns to the headings
of any document (its emitted anchors) is pairwise distinct: the first
heading to produce a slug keeps it, and `dedupe_slug` resolves every later
collision by appending `-2`, `-3`, … until an unused anchor is found, so
every assigned anchor is fresh. -/
theorem annotate_headings_anchors_nodup : ∀ md : Str, (annRun md).anchors.Nodup := by
  intro md
  unfold annRun
  exact (annRun_anchors_invariant (pySplitlines md) annInit List.nodup_nil
    (fun a ha => absurd ha (List.not_mem_nil a))).1

/-!
## Cross-reference resolver lemmas (C4)
-/

/-- Arm unfolding of the sub-scanner at an unskipped position. -/
theorem subScanL_match0 (reg : List (Str × Str)) (prev : Option Char) (c : Char)
    (rest : Str) :
    subScanL reg prev 0 (c :: rest) =
      match tryMatchPre prev (c :: rest) with
      | some (n, lab, num) =>
        replaceRef reg lab num ((c :: rest).take n) ++ subScanL reg (some c) (n - 1) rest
      | none => c :: subScanL reg (some c) 0 rest := rfl

/-- Arm unfolding of the unbound-keys predicate at an unskipped position. -/
theorem scanUnbound_match0 (reg : List (Str × Str)) (prev : Option Char) (c : Char)
    (rest : Str) :
    scanUnbound reg prev 0 (c :: rest) =
      match tryMatchPre prev (c :: rest) with
      | some (n, lab, num) =>
        (lookupA reg (make_ref_key lab num)).isNone && scanUnbound reg (some c) (n - 1) rest
      | none => scanUnbound reg (some c) 0 rest := rfl

/-- A successful `coreMatch` consumes past its offset (`\s+` needs at least
one character). -/
theorem coreMatch_pos (off : Nat) (cs : Str) (n : Nat) (lab num : Str)
    (h : coreMatch off cs = some (n, lab, num)) : off + 1 ≤ n := by
  unfold coreMatch at h
  cases hl : tryLabelAt (cs.drop off) with
  | none =>
    rw [hl] at h
    exact Option.noConfusion h
  | some t =>
    obtain ⟨lab', ll⟩ := t
    rw [hl] at h
    dsimp only at h
    by_cases hw : countWhile isSpacePy (cs.drop (off + ll)) = 0
    · rw [if_pos hw] at h
      exact Option.noConfusion h
    · rw [if_neg hw] at h
      cases hp : parseNum (cs.drop (off + ll + countWhile isSpacePy (cs.drop (off + ll)))) with
      | none =>
        rw [hp] at h
        exact Option.noConfusion h
      | some nlen =>
        rw [hp] at h
        dsimp only at h
        injection h with h1
        have h2 := congrArg Prod.fst h1
        dsimp at h2
        omega

/-- A successful `TABLE_REF_RE` match consumes at least one character. -/
theorem tryMatch_pos (prev : Option Char) (cs : Str) (n : Nat) (lab num : Str)
    (h : tryMatchPre prev cs = some (n, lab, num)) : 1 ≤ n := by
  unfold tryMatchPre at h
  by_cases hb : boundaryOk prev cs.head? = false
  · rw [if_pos hb] at h
    exact Option.noConfusion h
  · rw [if_neg hb] at h
    dsimp only at h
    split at h
    · next r heq =>
      injection h with h1
      subst h1
      split at heq
      · split at heq
        · exact Option.noConfusion heq
        · have := coreMatch_pos _ cs n lab num heq
          omega
      · exact Option.noConfusion heq
    · have := coreMatch_pos 0 cs n lab num h
      omega

/-- A line on which every scanned match has an unbound key passes through
`TABLE_REF_RE.sub` unchanged (stated for an arbitrary skip state). -/
theorem subScan_unbound_unchanged (reg : List (Str × Str)) :
    ∀ (l : Str) (prev : Option Char) (k : Nat),
      scanUnbound reg prev k l = true → subScanL reg prev k l = l.drop k := by
  intro l
  induction l with
  | nil =>
    intro prev k _
    cases k <;> rfl
  | cons c rest ih =>
    intro prev k h
    cases k with
    | succ kp =>
      have hs : subScanL reg prev (kp + 1) (c :: rest) = subScanL reg (some c) kp rest := rfl
      have hu : scanUnbound reg prev (kp + 1) (c :: rest) =
          scanUnbound reg (some c) kp rest := rfl
      rw [hu] at h
      rw [hs, ih (some c) kp h]
      rfl
    | zero =>
      cases hm : tryMatchPre prev (c :: rest) with
      | none =>
        rw [scanUnbound_match0, hm] at h
        rw [subScanL_match0, hm]
        rw [ih (some c) 0 h]
        rfl
      | some t =>
        obtain ⟨n, lab, num⟩ := t
        rw [scanUnbound_match0, hm, Bool.and_eq_true] at h
        rw [subScanL_match0, hm]
        have hlook : lookupA reg (make_ref_key lab num) = none :=
          Option.isNone_iff_eq_none.mp h.1
        have hrep : replaceRef reg lab num ((c :: rest).take n) = (c :: rest).take n := by
          unfold replaceRef
          rw [hlook]
        dsimp only
        rw [hrep, ih (some c) (n - 1) h.2]
        have hn := tryMatch_pos prev (c :: rest) n lab num hm
        cases n with
        | zero => omega
        | succ m =>
          rw [List.drop_zero, List.take_succ_cons]
          have hm1 : m + 1 - 1 = m := by omega
          rw [hm1, List.cons_append, List.take_append_drop]

/-- Lines examined with the fence toggle on pass through verbatim. -/
theorem nxLines_fence_aux (reg : List (Str × Str)) :
    ∀ (lines : List Str) (b : Bool) (i : Nat),
      (fenceFlags b lines).get? i = some true →
      (nxLines reg b lines).get? i = lines.get? i := by
  intro lines
  induction lines with
  | nil =>
    intro b i h
    simp [fenceFlags] at h
  | cons l ls ih =>
    intro b i h
    have hf : fenceFlags b (l :: ls) =
        b :: fenceFlags (if ticksLine l then !b else b) ls := rfl
    have hn : nxLines reg b (l :: ls) =
        (if ticksLine l then l :: nxLines reg (!b) ls
         else if b then l :: nxLines reg b ls
         else subRefs reg l :: nxLines reg b ls) := rfl
    rw [hf] at h
    cases i with
    | zero =>
      rw [List.get?_cons_zero] at h
      injection h with hb
      subst hb
      rw [hn]
      by_cases ht : ticksLine l = true
      · rw [if_pos ht]
        rfl
      · rw [if_neg ht, if_pos rfl]
        rfl
    | succ j =>
      rw [List.get?_cons_succ] at h
      rw [hn]
      by_cases ht : ticksLine l = true
      · rw [if_pos ht]
        rw [if_pos ht] at h
        simp only [List.get?_cons_succ]
        exact ih (!b) j h
      · rw [if_neg ht]
        rw [if_neg ht] at h
        by_cases hb : b = true
        · rw [if_pos hb]
          simp only [List.get?_cons_succ]
          exact ih b j h
        · rw [if_neg hb]
          simp only [List.get?_cons_succ]
          exact ih b j h

/-- C4 counterexample to the claim as stated: a matched reference whose key
**is bound in the registry** is not always wrapped — `replace_ref` applies
Python truthiness (`if not anchor`), so when the registry binds `table-1` to
the empty string, the line `Table 1` is left unchanged rather than linked. -/
theorem cross_reference_empty_anchor_not_wrapped :
    lookupA [(strL "table-1", ([] : Str))] (strL "table-1") = some [] ∧
    subRefs [(strL "table-1", ([] : Str))] (strL "Table 1") = strL "Table 1" ∧
    strL "Table 1" ≠ '[' :: (strL "Table 1" ++ strL "](#)") := by
  refine ⟨by decide, by decide, by decide⟩

/-- C4 amended: in `normalize_cross_references`, (1) every line examined
inside a triple-backtick fence is passed through byte-for-byte unchanged —
in particular a fenced line mentioning `Table 1` stays unlinked whatever the
registry binds; (2) a line all of whose scanned references have keys absent
from the registry is left unchanged by `TABLE_REF_RE.sub`; (3) a reference
matched at the head of a line whose key is bound to a **non-empty** anchor
is rewritten to the markdown link `[<match>](#<anchor>)` followed by the
scan of the rest of the line (a key bound to the empty string counts as
unbound, by the counterexample above). -/
theorem normalize_cross_references_spec :
    (∀ (reg : List (Str × Str)) (lines : List Str) (i : Nat),
        (fenceFlags false lines).get? i = some true →
        (nxLines reg false lines).get? i = lines.get? i) ∧
    (∀ (reg : List (Str × Str)) (line : Str),
        scanUnbound reg none 0 line = true → subRefs reg line = line) ∧
    (∀ (reg : List (Str × Str)) (c : Char) (rest : Str) (n : Nat) (lab num a : Str),
        tryMatchPre none (c :: rest) = some (n, lab, num) →
        lookupA reg (make_ref_key lab num) = some a →
        a ≠ [] →
        subRefs reg (c :: rest) =
          '[' :: ((c :: rest).take n ++ ']' :: '(' :: '#' ::
            (a ++ ')' :: subScanL reg (some c) (n - 1) rest))) := by
  refine ⟨fun reg lines i h => nxLines_fence_aux reg lines false i h, ?_, ?_⟩
  · intro reg line h
    have := subScan_unbound_unchanged reg line none 0 h
    rw [List.drop_zero] at this
    exact this
  · intro reg c rest n lab num a h1 h2 ha
    unfold subRefs
    rw [subScanL_match0, h1]
    dsimp only
    unfold replaceRef
    rw [h2]
    dsimp only
    rw [if_neg ha]
    simp [List.append_assoc]

/-- Witness for `normalize_cross_references_spec`: a fenced `Table 1` line
passes through even with `table-1` bound; a `Table 1` line against a registry
binding only `table-9` is unchanged; a `Table 1` line against `table-1 ↦
intro` is wrapped into a link. -/
theorem normalize_cross_references_spec_witness :
    (nxLines [(strL "table-1", strL "intro")] false
        [strL "```", strL "Table 1", strL "```"]).get? 1 = some (strL "Table 1") ∧
    subRefs [(strL "table-9", strL "x")] (strL "Table 1") = strL "Table 1" ∧
    subRefs [(strL "table-1", strL "intro")] (strL "Table 1") =
      '[' :: ((strL "Table 1").take 7 ++ ']' :: '(' :: '#' ::
        (strL "intro" ++ ')' ::
          subScanL [(strL "table-1", strL "intro")] (some 'T') 6 (strL "able 1"))) := by
  refine ⟨?_, ?_, ?_⟩
  · exact normalize_cross_references_spec.1 [(strL "table-1", strL "intro")]
      [strL "```", strL "Table 1", strL "```"] 1 (by decide)
  · exact normalize_cross_references_spec.2.1 [(strL "table-9", strL "x")]
      (strL "Table 1") (by decide)
  · exact normalize_cross_references_spec.2.2 [(strL "table-1", strL "intro")]
      'T' (strL "able 1") 7 (strL "table") (strL "1") (strL "intro")
      (by decide) (by decide) (by decide)

/-!
## Image placeholder resolver lemmas (C5)
-/

/-- Arm unfolding of `findSub` on a cons. -/
theorem findSub_cons (c : Char) (rest needle : Str) :
    findSub (c :: rest) needle =
      if hasPrefixL needle (c :: rest) then some 0
      else (findSub rest needle).map (· + 1) := rfl

/-- Arm unfolding of the token splitter at an unskipped position. -/
theorem pySplitTokGo_cons0 (tok : Str) (c : Char) (rest : Str) :
    pySplitTokGo tok 0 (c :: rest) =
      if hasPrefixL tok (c :: rest) then [] :: pySplitTokGo tok (tok.length - 1) rest
      else
        match pySplitTokGo tok 0 rest with
        | [] => [[c]]
        | h :: t => (c :: h) :: t := rfl

/-- Skipping `k` characters of the splitter is dropping them. -/
theorem pySplitTokGo_skip (tok : Str) :
    ∀ (l : Str) (k : Nat), pySplitTokGo tok k l = pySplitTokGo tok 0 (l.drop k) := by
  intro l
  induction l with
  | nil => intro k; cases k <;> rfl
  | cons c rest ih =>
    intro k
    cases k with
    | zero => rfl
    | succ kp =>
      have h1 : pySplitTokGo tok (kp + 1) (c :: rest) = pySplitTokGo tok kp rest := rfl
      rw [h1, ih kp]
      rfl

/-- The splitter never returns an empty list of parts. -/
theorem pySplitTokGo_ne_nil (tok : Str) :
    ∀ (l : Str) (k : Nat), pySplitTokGo tok k l ≠ [] := by
  intro l
  induction l with
  | nil => intro k; cases k <;> simp [pySplitTokGo]
  | cons c rest ih =>
    intro k
    cases k with
    | succ kp =>
      have h1 : pySplitTokGo tok (kp + 1) (c :: rest) = pySplitTokGo tok kp rest := rfl
      rw [h1]
      exact ih kp
    | zero =>
      rw [pySplitTokGo_cons0]
      by_cases hp : hasPrefixL tok (c :: rest) = true
      · rw [if_pos hp]
        simp
      · rw [if_neg hp]
        cases hr : pySplitTokGo tok 0 rest with
        | nil => exact absurd hr (ih 0)
        | cons h t => simp

/-- Without any token occurrence the splitter returns the whole string. -/
theorem pySplitTokGo_of_none (tok : Str) :
    ∀ (l : Str), findSub l tok = none → pySplitTokGo tok 0 l = [l] := by
  intro l
  induction l with
  | nil => intro _; rfl
  | cons c rest ih =>
    intro h
    rw [findSub_cons] at h
    by_cases hp : hasPrefixL tok (c :: rest) = true
    · rw [if_pos hp] at h
      exact Option.noConfusion h
    · rw [if_neg hp] at h
      have hrest : findSub rest tok = none := by
        cases hr : findSub rest tok with
        | none => rfl
        | some j => rw [hr] at h; exact Option.noConfusion h
      rw [pySplitTokGo_cons0, if_neg hp, ih hrest]

/-- At the first token occurrence the splitter cuts off the prefix and
recurses after the token. -/
theorem pySplitTokGo_of_some (tok : Str) (htok : tok ≠ []) :
    ∀ (l : Str) (i : Nat), findSub l tok = some i →
      pySplitTokGo tok 0 l =
        l.take i :: pySplitTokGo tok 0 (l.drop (i + tok.length)) := by
  intro l
  induction l with
  | nil =>
    intro i h
    unfold findSub at h
    rw [if_neg htok] at h
    exact Option.noConfusion h
  | cons c rest ih =>
    intro i h
    rw [findSub_cons] at h
    by_cases hp : hasPrefixL tok (c :: rest) = true
    · rw [if_pos hp] at h
      injection h with hi
      subst hi
      rw [pySplitTokGo_cons0, if_pos hp, pySplitTokGo_skip tok rest (tok.length - 1)]
      cases htl : tok.length with
      | zero => exact absurd (List.length_eq_zero.mp htl) htok
      | succ m => simp
    · rw [if_neg hp] at h
      cases hr : findSub rest tok with
      | none => rw [hr] at h; exact Option.noConfusion h
      | some j =>
        rw [hr] at h
        dsimp only [Option.map] at h
        injection h with hi
        subst hi
        rw [pySplitTokGo_cons0, if_neg hp, ih j hr]
        have hadd : j + 1 + tok.length = (j + tok.length) + 1 := by omega
        rw [hadd, List.drop_succ_cons, List.take_succ_cons]

/-- Unfolding of the spec-side resolver when no placeholder remains. -/
theorem specResolveImages_eq_none (imgs : List ImageRef) (k : Nat) (l : Str)
    (hf : findSub l imgToken = none) : specResolveImages imgs k l = l := by
  rw [specResolveImages.eq_def]
  split
  · rfl
  · next i heq =>
    rw [hf] at heq
    exact Option.noConfusion heq

/-- Unfolding of the spec-side resolver at the first placeholder. -/
theorem specResolveImages_eq_some (imgs : List ImageRef) (k : Nat) (l : Str) (i : Nat)
    (hf : findSub l imgToken = some i) :
    specResolveImages imgs k l =
      l.take i ++ imageSub imgs k ++
        specResolveImages imgs (k + 1) (l.drop (i + imgToken.length)) := by
  rw [specResolveImages.eq_def]
  split
  · next heq =>
    rw [hf] at heq
    exact Option.noConfusion heq
  · next j heq =>
    rw [hf] at heq
    injection heq with hji
    subst hji
    rfl

/-- The split-then-interleave loop equals the occurrence-by-occurrence
substitution of the spec, for any starting index. -/
theorem buildParts_splitTok_eq_spec :
    ∀ (N : Nat) (l : Str), l.length ≤ N → ∀ (imgs : List ImageRef) (k : Nat),
      buildParts imgs k (pySplitTokGo imgToken 0 l) = specResolveImages imgs k l := by
  intro N
  induction N with
  | zero =>
    intro l hl imgs k
    have hnil : l = [] := List.length_eq_zero.mp (by omega)
    subst hnil
    rw [specResolveImages_eq_none imgs k [] (by decide)]
    rfl
  | succ N ih =>
    intro l hl imgs k
    cases hf : findSub l imgToken with
    | none =>
      rw [pySplitTokGo_of_none imgToken l hf, specResolveImages_eq_none imgs k l hf]
      rfl
    | some i =>
      have hlne : l ≠ [] := by
        intro he
        subst he
        rw [show findSub [] imgToken = none from by decide] at hf
        exact Option.noConfusion hf
      rw [pySplitTokGo_of_some imgToken (by decide) l i hf,
        specResolveImages_eq_some imgs k l i hf]
      cases hps : pySplitTokGo imgToken 0 (l.drop (i + imgToken.length)) with
      | nil => exact absurd hps (pySplitTokGo_ne_nil imgToken _ 0)
      | cons h t =>
        have hb : buildParts imgs k (l.take i :: h :: t) =
            l.take i ++ imageSub imgs k ++ buildParts imgs (k + 1) (h :: t) := rfl
        rw [hb, ← hps]
        rw [ih (l.drop (i + imgToken.length)) ?_ imgs (k + 1)]
        have h14 : imgToken.length = 14 := by decide
        have hpos : 0 < l.length := List.length_pos.mpr hlne
        rw [List.length_drop, h14]
        omega

/-- C5: `replace_image_placeholders` refines the spec's description: it
substitutes the k-th placeholder occurrence (1-based) with the k-th image's
markdown reference (alt text escaped) when `k ≤ len(images)` and with the
stable numbered fallback `![image_NNN](#image_NNN)` otherwise; every
placeholder is substituted (none dropped) and the function is total. -/
theorem replace_image_placeholders_refines_spec :
    ∀ (md : Str) (images : List ImageRef),
      replace_image_placeholders md images = specResolveImages images 1 md := by
  intro md imgs
  unfold replace_image_placeholders pySplitTok
  by_cases hlen : (pySplitTokGo imgToken 0 md).length = 1
  · rw [if_pos hlen]
    cases hf : findSub md imgToken with
    | none => rw [specResolveImages_eq_none imgs 1 md hf]
    | some i =>
      exfalso
      rw [pySplitTokGo_of_some imgToken (by decide) md i hf] at hlen
      simp at hlen
      exact pySplitTokGo_ne_nil imgToken _ 0 hlen
  · rw [if_neg hlen]
    exact buildParts_splitTok_eq_spec md.length md (le_refl _) imgs 1
